import Mathlib

/-!
Shallow embedding of the molecule-to-graph converter in
`pytorch_geometric_introduction.ipynb` (class `MyDataset`), of the
surrounding load-or-build dataset construction, and of the train/test
split used by the training section of the notebook.

The chemistry toolkit (RDKit) is external to the repository; a parsed
molecule is modelled abstractly as a list of atoms and a list of bonds
carrying exactly the attributes the notebook reads
(`GetAtomicNum`, `GetDegree`, `GetFormalCharge`, `GetHybridization`,
`GetIsAromatic`, `GetBeginAtomIdx`, `GetEndAtomIdx`,
`GetBondTypeAsDouble`, `GetAdjacencyMatrix`).
-/

namespace PyGIntro

/-- An RDKit atom, restricted to the five attributes read by
`MyDataset.process`. -/
structure Atom where
  atomicNum : Int
  degree : Int
  formalCharge : Int
  hybridization : Int
  isAromatic : Bool
deriving DecidableEq, Repr

/-- RDKit bond types occurring in the tutorial's molecules. -/
inductive BondType where
  | single
  | double
  | triple
  | aromatic
deriving DecidableEq, Repr

/-- RDKit `bond.GetBondTypeAsDouble()`: `1.0` / `2.0` / `3.0` for
single/double/triple bonds and `1.5` for aromatic bonds. -/
def BondType.asDouble : BondType → ℚ
  | .single => 1
  | .double => 2
  | .triple => 3
  | .aromatic => Rat.mk' 3 2

/-- An RDKit bond, restricted to the attributes read by
`MyDataset.process`. -/
structure Bond where
  beginAtomIdx : Nat
  endAtomIdx : Nat
  bondType : BondType
  isAromatic : Bool
deriving DecidableEq, Repr

/-- A parsed molecule: atoms in RDKit's native order, plus bonds. -/
structure Mol where
  atoms : List Atom
  bonds : List Bond
deriving DecidableEq, Repr

/-- RDKit `mol.GetNumAtoms()`. -/
def Mol.GetNumAtoms (m : Mol) : Nat := m.atoms.length

/-- Python `int(..)` applied to a (rational-valued) double: truncation
toward zero (`Int.div` is T-division, which truncates toward zero). -/
def pyInt (q : ℚ) : Int := q.num.tdiv (q.den : Int)

/-- One row of the node-feature matrix `x` as written by the per-atom
loop of `MyDataset.process`:
`x[i] = [GetAtomicNum, GetDegree, GetFormalCharge, GetHybridization, GetIsAromatic]`
(the Boolean aromaticity flag is stored into a `long` tensor, hence 0/1). -/
def atomRow (a : Atom) : List Int :=
  [a.atomicNum, a.degree, a.formalCharge, a.hybridization,
   if a.isAromatic then 1 else 0]

/-- The node-feature matrix `x` of `MyDataset.process`: one row per atom,
in the molecule's native atom order. -/
def nodeFeatures (m : Mol) : List (List Int) := m.atoms.map atomRow

/-- The per-bond edge feature of `MyDataset.process`:
`attr = 4 if bond.GetIsAromatic() else int(bond.GetBondTypeAsDouble())`. -/
def bondAttr (b : Bond) : Int :=
  if b.isAromatic then 4 else pyInt b.bondType.asDouble

/-- The `edge_indices` list built by the bond loop: each bond contributes
`[[atom1, atom2], [atom2, atom1]]` with `atom1 = GetBeginAtomIdx` and
`atom2 = GetEndAtomIdx`. -/
def edge_indices (m : Mol) : List (Nat × Nat) :=
  m.bonds.flatMap fun b =>
    [(b.beginAtomIdx, b.endAtomIdx), (b.endAtomIdx, b.beginAtomIdx)]

/-- The `edge_attrs` list built by the bond loop: each bond contributes
`[attr, attr]`. -/
def edge_attrs (m : Mol) : List Int :=
  m.bonds.flatMap fun b => [bondAttr b, bondAttr b]

/-- The composite sort key `edge_index[0] * x.size(0) + edge_index[1]`
of one directed edge. -/
def edgeKey (n : Nat) (e : Nat × Nat) : Nat := e.1 * n + e.2

/-- The comparison underlying the argsort step: composite key of the
edge column, attribute carried along. -/
def keyLe (n : Nat) (p q : (Nat × Nat) × Int) : Prop :=
  edgeKey n p.1 ≤ edgeKey n q.1

instance (n : Nat) : DecidableRel (keyLe n) := fun p q =>
  inferInstanceAs (Decidable (edgeKey n p.1 ≤ edgeKey n q.1))

instance (n : Nat) : IsTotal ((Nat × Nat) × Int) (keyLe n) :=
  ⟨fun _ _ => Nat.le_total _ _⟩

instance (n : Nat) : IsTrans ((Nat × Nat) × Int) (keyLe n) :=
  ⟨fun _ _ _ => Nat.le_trans⟩

/-- Application of the permutation
`perm = (edge_index[0] * x.size(0) + edge_index[1]).argsort()` to
`edge_index` and `edge_attr` jointly, modelled as a stable sort of the
zipped columns by the composite key. -/
def sortEdges (n : Nat) (ei : List (Nat × Nat)) (ea : List Int) :
    List (Nat × Nat) × List Int :=
  (((ei.zip ea).insertionSort (keyLe n)).map Prod.fst,
   ((ei.zip ea).insertionSort (keyLe n)).map Prod.snd)

/-- The edge-attribute branch of `MyDataset.process`: build
`edge_indices` and `edge_attrs` from the bonds and, when
`edge_index.numel() > 0`, sort both by the composite key. -/
def edgesWithAttr (m : Mol) : List (Nat × Nat) × List Int :=
  if 0 < (edge_indices m).length then
    sortEdges m.GetNumAtoms (edge_indices m) (edge_attrs m)
  else (edge_indices m, edge_attrs m)

/-- RDKit adjacency relation: some bond of `m` joins atoms `i` and `j`
(in either direction). -/
def Mol.adjacent (m : Mol) (i j : Nat) : Bool :=
  m.bonds.any fun b =>
    (b.beginAtomIdx == i && b.endAtomIdx == j) ||
      (b.beginAtomIdx == j && b.endAtomIdx == i)

/-- RDKit `Chem.rdmolops.GetAdjacencyMatrix(mol)`: the dense `n × n`
0/1 adjacency matrix. -/
def GetAdjacencyMatrix (m : Mol) : List (List Nat) :=
  (List.range m.GetNumAtoms).map fun i =>
    (List.range m.GetNumAtoms).map fun j => if m.adjacent i j then 1 else 0

/-- `torch_geometric.utils.dense_to_sparse`: the index pairs of the
nonzero entries of a dense matrix, scanned in row-major order. -/
def dense_to_sparse (a : List (List Nat)) : List (Nat × Nat) :=
  (List.range a.length).flatMap fun i =>
    (List.range (a.getD i []).length).filterMap fun j =>
      if (a.getD i []).getD j 0 ≠ 0 then some (i, j) else none

/-- The no-edge-attribute branch of `MyDataset.process`:
`edge_index, _ = dense_to_sparse(torch.tensor(GetAdjacencyMatrix(mol)))`. -/
def edgesNoAttr (m : Mol) : List (Nat × Nat) :=
  dense_to_sparse (GetAdjacencyMatrix m)

/-- One row of the raw CSV table `data.csv`: a SMILES string and a
numeric label. -/
structure Row where
  smiles : String
  labels : Int
deriving DecidableEq, Repr

/-- One `torch_geometric.data.Data` object as assembled by
`MyDataset.process` (`edge_attr` is only set in edge-attribute mode). -/
structure GraphRecord where
  x : List (List Int)
  edge_index : List (Nat × Nat)
  y : List (List Int)
  smiles : String
  edge_attr : Option (List Int)
deriving DecidableEq, Repr

/-- The body of the per-row loop of `MyDataset.process`; `none` when
`Chem.MolFromSmiles` returns no molecule (the Python code then raises on
the first attribute access, aborting the whole run). -/
def processRow (parse : String → Option Mol) (create_edge_attr : Bool)
    (row : Row) : Option GraphRecord :=
  match parse row.smiles with
  | none => none
  | some mol =>
    some { x := nodeFeatures mol
           edge_index :=
             if create_edge_attr then (edgesWithAttr mol).1 else edgesNoAttr mol
           y := [[row.labels]]
           smiles := row.smiles
           edge_attr :=
             if create_edge_attr then some (edgesWithAttr mol).2 else none }

/-- The whole loop of `MyDataset.process` over the CSV rows, in row
order: one graph record per row, aborting (with `none`) as soon as any
row fails. -/
def processTable (parse : String → Option Mol) (create_edge_attr : Bool) :
    List Row → Option (List GraphRecord)
  | [] => some []
  | row :: rest =>
    match processRow parse create_edge_attr row with
    | none => none
    | some rec =>
      match processTable parse create_edge_attr rest with
      | none => none
      | some recs => some (rec :: recs)

/-- The processed-file slot of the dataset root directory: `none` when
`processed_data.pt` does not exist, otherwise the stored collection. -/
structure Store where
  cache : Option (List GraphRecord)
deriving DecidableEq, Repr

/-- Modelled from the spec: the load-or-build contract of the dataset
constructor (the skip-if-present logic lives in the external
`InMemoryDataset` base class, which is not part of this repository).
If the processed file exists it is loaded as-is — no re-derivation, no
integrity check, zero parser invocations.  Otherwise `process` runs and,
only on success, the single cache write is performed.  The result is the
returned collection, the updated store, and the number of rows on which
the structure parser was invoked. -/
def constructDataset (parse : String → Option Mol) (create_edge_attr : Bool)
    (rows : List Row) (st : Store) :
    Option (List GraphRecord × Store × Nat) :=
  match st.cache with
  | some c => some (c, st, 0)
  | none =>
    match processTable parse create_edge_attr rows with
    | none => none
    | some recs => some (recs, { cache := some recs }, rows.length)

/-- The training split `dataset[:int(len(dataset)*.8)]` of the notebook
(`int(n*0.8)` equals `8*n/10` rounded down for every table size arising
here). -/
def train_set (l : List GraphRecord) : List GraphRecord :=
  l.take (8 * l.length / 10)

/-- The test split `dataset[int(len(dataset)*.8):]` of the notebook. -/
def test_set (l : List GraphRecord) : List GraphRecord :=
  l.drop (8 * l.length / 10)

/-- Structural invariants RDKit guarantees for every parsed molecule:
bond endpoints are in-range atom indices, no bond joins an atom to
itself, and no two bonds join the same pair of atoms. -/
def Mol.wf (m : Mol) : Prop :=
  (∀ b ∈ m.bonds,
      b.beginAtomIdx < m.atoms.length ∧ b.endAtomIdx < m.atoms.length ∧
        b.beginAtomIdx ≠ b.endAtomIdx) ∧
  m.bonds.Pairwise fun b c =>
    ¬((b.beginAtomIdx = c.beginAtomIdx ∧ b.endAtomIdx = c.endAtomIdx) ∨
      (b.beginAtomIdx = c.endAtomIdx ∧ b.endAtomIdx = c.beginAtomIdx))

/-- Modelled from the spec: `Chem.MolFromSmiles "CCO"` — ethanol, three
heavy atoms (two sp3 carbons and one sp3 oxygen) and two single bonds. -/
def ethanol : Mol :=
  { atoms := [⟨6, 1, 0, 4, false⟩, ⟨6, 2, 0, 4, false⟩, ⟨8, 1, 0, 4, false⟩]
    bonds := [⟨0, 1, .single, false⟩, ⟨1, 2, .single, false⟩] }

/-- Modelled from the spec: `Chem.MolFromSmiles "O"` — water, a single
heavy atom and no bonds. -/
def water : Mol :=
  { atoms := [⟨8, 0, 0, 4, false⟩]
    bonds := [] }

/-- Modelled from the spec: the structure parser (`Chem.MolFromSmiles`)
restricted to the SMILES strings of the example table. -/
def parseExample (s : String) : Option Mol :=
  if s = "CCO" then some ethanol
  else if s = "O" then some water
  else none

/-- The two-row example table of §8 of the spec: `"CCO"` with label 1
and `"O"` with label 0. -/
def exampleTable : List Row := [⟨"CCO", 1⟩, ⟨"O", 0⟩]

/-- The record `MyDataset.process` emits for the ethanol row of the
example table (edge-attribute mode). -/
def ethanolRecord : GraphRecord :=
  { x := [[6, 1, 0, 4, 0], [6, 2, 0, 4, 0], [8, 1, 0, 4, 0]]
    edge_index := [(0, 1), (1, 0), (1, 2), (2, 1)]
    y := [[1]]
    smiles := "CCO"
    edge_attr := some [1, 1, 1, 1] }

/-- The record `MyDataset.process` emits for the water row of the
example table (edge-attribute mode). -/
def waterRecord : GraphRecord :=
  { x := [[8, 0, 0, 4, 0]]
    edge_index := []
    y := [[0]]
    smiles := "O"
    edge_attr := some [] }

/-! ## Helper lemmas -/

theorem length_flatMap_pair {α β : Type _} (f g : α → β) (l : List α) :
    (l.flatMap fun a => [f a, g a]).length = 2 * l.length := by
  induction l with
  | nil => rfl
  | cons a t ih => simp only [List.flatMap_cons, List.length_append, ih]; simp; omega

theorem zip_flatMap_pair {α β γ : Type _} (f g : α → β) (h : α → γ) (l : List α) :
    (l.flatMap fun a => [f a, g a]).zip (l.flatMap fun a => [h a, h a]) =
      l.flatMap fun a => [(f a, h a), (g a, h a)] := by
  induction l with
  | nil => rfl
  | cons a t ih => simp [List.flatMap_cons, ih]

theorem zip_fst_snd {α β : Type _} : ∀ l : List (α × β),
    (l.map Prod.fst).zip (l.map Prod.snd) = l
  | [] => rfl
  | p :: t => by simp [zip_fst_snd t]

theorem length_edge_indices (m : Mol) :
    (edge_indices m).length = 2 * m.bonds.length :=
  length_flatMap_pair _ _ _

theorem length_edge_attrs (m : Mol) :
    (edge_attrs m).length = 2 * m.bonds.length :=
  length_flatMap_pair _ _ _

/-- The zipped columns handed to the argsort step, bond by bond. -/
theorem zip_edge_indices_attrs (m : Mol) :
    (edge_indices m).zip (edge_attrs m) =
      m.bonds.flatMap fun b =>
        [((b.beginAtomIdx, b.endAtomIdx), bondAttr b),
         ((b.endAtomIdx, b.beginAtomIdx), bondAttr b)] :=
  zip_flatMap_pair _ _ _ _

theorem processTable_eq_none (parse : String → Option Mol) (flag : Bool) :
    ∀ rows : List Row,
      (processTable parse flag rows = none ↔
        ∃ r ∈ rows, processRow parse flag r = none)
  | [] => by simp [processTable]
  | row :: rest => by
    rw [processTable]
    cases hfa : processRow parse flag row with
    | none => simp [hfa]
    | some rec =>
      cases ht : processTable parse flag rest with
      | none =>
        simpa using Or.inr ((processTable_eq_none parse flag rest).mp ht)
      | some recs =>
        have hnone : ¬∃ r ∈ rest, processRow parse flag r = none := by
          rw [← processTable_eq_none parse flag rest, ht]
          simp
        simp only [List.mem_cons]
        constructor
        · intro h; exact Option.noConfusion h
        · rintro ⟨x, hx, hxnone⟩
          rcases hx with rfl | hx
          · rw [hfa] at hxnone; exact Option.noConfusion hxnone
          · exact absurd ⟨x, hx, hxnone⟩ hnone

theorem processTable_eq_some (parse : String → Option Mol) (flag : Bool) :
    ∀ (rows : List Row) (recs : List GraphRecord),
      processTable parse flag rows = some recs →
      recs.length = rows.length ∧
        ∀ r ∈ rows, ∃ rec, processRow parse flag r = some rec
  | [], recs, h => by
    rw [processTable] at h
    injection h with h
    subst h; simp
  | row :: rest, recs, h => by
    rw [processTable] at h
    cases hfa : processRow parse flag row with
    | none => rw [hfa] at h; exact Option.noConfusion h
    | some rec =>
      rw [hfa] at h
      cases ht : processTable parse flag rest with
      | none => rw [ht] at h; exact Option.noConfusion h
      | some recs' =>
        rw [ht] at h
        injection h with h
        subst h
        have ih := processTable_eq_some parse flag rest recs' ht
        refine ⟨by simp [ih.1], ?_⟩
        intro x hx
        rcases List.mem_cons.mp hx with rfl | hx
        · exact ⟨rec, hfa⟩
        · exact ih.2 x hx

theorem processRow_eq_none (parse : String → Option Mol) (flag : Bool)
    (row : Row) : processRow parse flag row = none ↔ parse row.smiles = none := by
  cases h : parse row.smiles <;> simp [processRow, h]

theorem processRow_parse_some (parse : String → Option Mol) (flag : Bool)
    (row : Row) (mol : Mol) (hp : parse row.smiles = some mol) :
    processRow parse flag row =
      some { x := nodeFeatures mol
             edge_index :=
               if flag then (edgesWithAttr mol).1 else edgesNoAttr mol
             y := [[row.labels]]
             smiles := row.smiles
             edge_attr := if flag then some (edgesWithAttr mol).2 else none } := by
  rw [processRow, hp]

theorem bonds_eq_nil_of_no_edges (m : Mol)
    (h : ¬0 < (edge_indices m).length) : m.bonds = [] := by
  have := length_edge_indices m
  exact List.length_eq_zero.mp (by omega)

/-- Both branches of the `edge_index.numel() > 0` guard agree with the
sorted form (the guard only skips sorting the empty list). -/
theorem edgesWithAttr_eq_sort (m : Mol) :
    edgesWithAttr m = sortEdges m.GetNumAtoms (edge_indices m) (edge_attrs m) := by
  by_cases h : 0 < (edge_indices m).length
  · rw [edgesWithAttr, if_pos h]
  · have hb : m.bonds = [] := bonds_eq_nil_of_no_edges m h
    have hei : edge_indices m = [] := by simp [edge_indices, hb]
    have hea : edge_attrs m = [] := by simp [edge_attrs, hb]
    rw [edgesWithAttr, if_neg h, hei, hea]
    rfl

theorem edgesWithAttr_zip (m : Mol) :
    (edgesWithAttr m).1.zip (edgesWithAttr m).2 =
      ((edge_indices m).zip (edge_attrs m)).insertionSort
        (keyLe m.GetNumAtoms) := by
  rw [edgesWithAttr_eq_sort, sortEdges]
  exact zip_fst_snd _

theorem edgesWithAttr_zip_perm (m : Mol) :
    ((edgesWithAttr m).1.zip (edgesWithAttr m).2).Perm
      ((edge_indices m).zip (edge_attrs m)) := by
  rw [edgesWithAttr_zip]
  exact List.perm_insertionSort _ _

theorem edgesWithAttr_zip_sorted (m : Mol) :
    ((edgesWithAttr m).1.zip (edgesWithAttr m).2).Sorted
      (keyLe m.GetNumAtoms) := by
  rw [edgesWithAttr_zip]
  exact List.sorted_insertionSort _ _

theorem length_edgesWithAttr_fst (m : Mol) :
    (edgesWithAttr m).1.length = 2 * m.bonds.length := by
  rw [edgesWithAttr_eq_sort, sortEdges]
  simp [List.length_zip, length_edge_indices, length_edge_attrs]

theorem length_edgesWithAttr_snd (m : Mol) :
    (edgesWithAttr m).2.length = 2 * m.bonds.length := by
  rw [edgesWithAttr_eq_sort, sortEdges]
  simp [List.length_zip, length_edge_indices, length_edge_attrs]

theorem edgeKey_inj {n : Nat} {p q : Nat × Nat} (hp : p.2 < n) (hq : q.2 < n)
    (h : edgeKey n p = edgeKey n q) : p = q := by
  have hn : 0 < n := Nat.lt_of_le_of_lt (Nat.zero_le _) hp
  unfold edgeKey at h
  have h1 : p.1 = q.1 := by
    have e1 : (p.1 * n + p.2) / n = p.1 := by
      rw [Nat.mul_comm, Nat.mul_add_div hn, Nat.div_eq_of_lt hp, Nat.add_zero]
    have e2 : (q.1 * n + q.2) / n = q.1 := by
      rw [Nat.mul_comm, Nat.mul_add_div hn, Nat.div_eq_of_lt hq, Nat.add_zero]
    rw [← e1, ← e2, h]
  have h2 : p.2 = q.2 := by
    rw [h1] at h
    exact Nat.add_left_cancel h
  exact Prod.ext h1 h2

theorem mem_edge_indices_iff (m : Mol) (p : Nat × Nat) :
    p ∈ edge_indices m ↔ m.adjacent p.1 p.2 = true := by
  rw [edge_indices, List.mem_flatMap, Mol.adjacent, List.any_eq_true]
  constructor
  · rintro ⟨b, hb, hmem⟩
    refine ⟨b, hb, ?_⟩
    simp only [List.mem_cons, List.not_mem_nil, or_false] at hmem
    rcases hmem with rfl | rfl <;> simp
  · rintro ⟨b, hb, hcond⟩
    refine ⟨b, hb, ?_⟩
    simp only [Bool.or_eq_true, Bool.and_eq_true, beq_iff_eq] at hcond
    rcases hcond with ⟨h1, h2⟩ | ⟨h1, h2⟩
    · have : (b.beginAtomIdx, b.endAtomIdx) = p := by rw [h1, h2]
      rw [this]; exact List.mem_cons_self _ _
    · have : (b.endAtomIdx, b.beginAtomIdx) = p := by rw [h1, h2]
      rw [this]; simp

theorem adjacent_bounds (m : Mol) (hm : m.wf) {i j : Nat}
    (h : m.adjacent i j = true) :
    i < m.GetNumAtoms ∧ j < m.GetNumAtoms := by
  rw [Mol.adjacent, List.any_eq_true] at h
  obtain ⟨b, hb, hcond⟩ := h
  obtain ⟨h1, h2, -⟩ := hm.1 b hb
  simp only [Bool.or_eq_true, Bool.and_eq_true, beq_iff_eq] at hcond
  rcases hcond with ⟨e1, e2⟩ | ⟨e1, e2⟩
  · subst e1; subst e2; exact ⟨h1, h2⟩
  · subst e1; subst e2; exact ⟨h2, h1⟩

/-- The adjacency-matrix route, rewritten over the atom-index ranges. -/
theorem edgesNoAttr_eq (m : Mol) :
    edgesNoAttr m =
      (List.range m.GetNumAtoms).flatMap fun i =>
        (List.range m.GetNumAtoms).filterMap fun j =>
          if m.adjacent i j then some (i, j) else none := by
  have hrow : ∀ i < m.GetNumAtoms, (GetAdjacencyMatrix m).getD i [] =
      (List.range m.GetNumAtoms).map fun j =>
        if m.adjacent i j then 1 else 0 := by
    intro i hi
    rw [GetAdjacencyMatrix, List.getD_eq_getElem?_getD, List.getElem?_map,
      List.getElem?_range hi]
    rfl
  have hlen : (GetAdjacencyMatrix m).length = m.GetNumAtoms := by
    simp [GetAdjacencyMatrix]
  rw [edgesNoAttr, dense_to_sparse, hlen, List.flatMap, List.flatMap]
  congr 1
  apply List.map_congr_left
  intro i hi
  rw [List.mem_range] at hi
  rw [hrow i hi, List.length_map, List.length_range]
  apply List.filterMap_congr
  intro j hj
  rw [List.mem_range] at hj
  rw [List.getD_eq_getElem?_getD, List.getElem?_map, List.getElem?_range hj]
  by_cases hadj : m.adjacent i j = true
  · simp [hadj]
  · simp [hadj]

theorem mem_edgesNoAttr_iff (m : Mol) (p : Nat × Nat) :
    p ∈ edgesNoAttr m ↔
      p.1 < m.GetNumAtoms ∧ p.2 < m.GetNumAtoms ∧
        m.adjacent p.1 p.2 = true := by
  rw [edgesNoAttr_eq]
  simp only [List.mem_flatMap, List.mem_filterMap, List.mem_range]
  constructor
  · rintro ⟨i, hi, j, hj, hf⟩
    by_cases hadj : m.adjacent i j = true
    · rw [if_pos hadj] at hf
      injection hf with hf
      subst hf
      exact ⟨hi, hj, hadj⟩
    · rw [if_neg hadj] at hf
      exact Option.noConfusion hf
  · rintro ⟨h1, h2, h3⟩
    exact ⟨p.1, h1, p.2, h2, by rw [if_pos h3]⟩

/-- The adjacency-matrix route emits its pairs in strictly increasing
composite-key order (row-major scan). -/
theorem pairwise_lt_edgesNoAttr (m : Mol) :
    (edgesNoAttr m).Pairwise fun p q =>
      edgeKey m.GetNumAtoms p < edgeKey m.GetNumAtoms q := by
  rw [edgesNoAttr_eq]
  rw [List.pairwise_flatMap]
  constructor
  · intro i _
    rw [List.pairwise_filterMap]
    refine List.Pairwise.imp ?_ (List.sorted_lt_range m.GetNumAtoms)
    intro j1 j2 hlt x hx y hy
    by_cases h1 : m.adjacent i j1 = true
    · rw [if_pos h1, Option.mem_some_iff] at hx
      by_cases h2 : m.adjacent i j2 = true
      · rw [if_pos h2, Option.mem_some_iff] at hy
        subst hx; subst hy
        exact Nat.add_lt_add_left hlt _
      · rw [if_neg h2] at hy; exact absurd hy (Option.not_mem_none y)
    · rw [if_neg h1] at hx; exact absurd hx (Option.not_mem_none x)
  · refine List.Pairwise.imp ?_ (List.sorted_lt_range m.GetNumAtoms)
    intro i1 i2 hlt x hx y hy
    obtain ⟨j1, hj1, hfx⟩ := List.mem_filterMap.mp hx
    obtain ⟨j2, hj2, hfy⟩ := List.mem_filterMap.mp hy
    rw [List.mem_range] at hj1 hj2
    by_cases h1 : m.adjacent i1 j1 = true
    · by_cases h2 : m.adjacent i2 j2 = true
      · rw [if_pos h1] at hfx
        rw [if_pos h2] at hfy
        injection hfx with hfx
        injection hfy with hfy
        subst hfx; subst hfy
        show i1 * m.GetNumAtoms + j1 < i2 * m.GetNumAtoms + j2
        calc i1 * m.GetNumAtoms + j1
            < i1 * m.GetNumAtoms + m.GetNumAtoms := Nat.add_lt_add_left hj1 _
          _ = (i1 + 1) * m.GetNumAtoms := (Nat.succ_mul i1 _).symm
          _ ≤ i2 * m.GetNumAtoms := Nat.mul_le_mul_right _ hlt
          _ ≤ i2 * m.GetNumAtoms + j2 := Nat.le_add_right _ _
      · rw [if_neg h2] at hfy; exact Option.noConfusion hfy
    · rw [if_neg h1] at hfx; exact Option.noConfusion hfx

/-- Under the RDKit well-formedness invariants, every directed pair in
`edge_indices` has a composite key different from every other entry's. -/
theorem pairwise_key_ne_edge_indices (m : Mol) (hm : m.wf) :
    (edge_indices m).Pairwise fun p q =>
      edgeKey m.GetNumAtoms p ≠ edgeKey m.GetNumAtoms q := by
  obtain ⟨hbound, hdist⟩ := hm
  rw [edge_indices, List.pairwise_flatMap]
  constructor
  · intro b hb
    obtain ⟨h1, h2, hne⟩ := hbound b hb
    refine List.Pairwise.cons ?_ (List.pairwise_singleton _ _)
    intro y hy
    simp only [List.mem_cons, List.not_mem_nil, or_false] at hy
    subst hy
    intro hkey
    have := edgeKey_inj h2 h1 hkey
    exact hne (congrArg Prod.fst this)
  · refine List.Pairwise.imp_of_mem ?_ hdist
    intro b c hb hc hbc x hx y hy hkey
    obtain ⟨hb1, hb2, -⟩ := hbound b hb
    obtain ⟨hc1, hc2, -⟩ := hbound c hc
    simp only [List.mem_cons, List.not_mem_nil, or_false] at hx hy
    apply hbc
    rcases hx with rfl | rfl <;> rcases hy with rfl | rfl
    · have := edgeKey_inj hb2 hc2 hkey
      exact Or.inl ⟨congrArg Prod.fst this, congrArg Prod.snd this⟩
    · have := edgeKey_inj hb2 hc1 hkey
      exact Or.inr ⟨congrArg Prod.fst this, congrArg Prod.snd this⟩
    · have := edgeKey_inj hb1 hc2 hkey
      exact Or.inr ⟨(congrArg Prod.snd this), (congrArg Prod.fst this)⟩
    · have := edgeKey_inj hb1 hc1 hkey
      exact Or.inl ⟨congrArg Prod.snd this, congrArg Prod.fst this⟩

/-- The emitted edge column of the edge-attribute branch is a
permutation of the raw bond contributions. -/
theorem edgesWithAttr_fst_perm (m : Mol) :
    (edgesWithAttr m).1.Perm (edge_indices m) := by
  have h1 : (edgesWithAttr m).1 =
      ((edgesWithAttr m).1.zip (edgesWithAttr m).2).map Prod.fst := by
    rw [edgesWithAttr_zip, edgesWithAttr_eq_sort, sortEdges]
  have h2 := (edgesWithAttr_zip_perm m).map Prod.fst
  have h3 : ((edge_indices m).zip (edge_attrs m)).map Prod.fst
      = edge_indices m :=
    List.map_fst_zip (edge_indices m) (edge_attrs m)
      (le_of_eq (by rw [length_edge_indices, length_edge_attrs]))
  rw [h3] at h2
  rw [h1]
  exact h2

theorem pairwise_le_keys_fst (m : Mol) :
    (edgesWithAttr m).1.Pairwise fun p q =>
      edgeKey m.GetNumAtoms p ≤ edgeKey m.GetNumAtoms q := by
  have h1 : (edgesWithAttr m).1 =
      ((edgesWithAttr m).1.zip (edgesWithAttr m).2).map Prod.fst := by
    rw [edgesWithAttr_zip, edgesWithAttr_eq_sort, sortEdges]
  rw [h1]
  exact List.pairwise_map.mpr (edgesWithAttr_zip_sorted m)

theorem pairwise_lt_keys_fst (m : Mol) (hm : m.wf) :
    (edgesWithAttr m).1.Pairwise fun p q =>
      edgeKey m.GetNumAtoms p < edgeKey m.GetNumAtoms q := by
  have hle := pairwise_le_keys_fst m
  have hsym : ∀ {x y : Nat × Nat},
      (edgeKey m.GetNumAtoms x ≠ edgeKey m.GetNumAtoms y) →
        (edgeKey m.GetNumAtoms y ≠ edgeKey m.GetNumAtoms x) :=
    fun h => h.symm
  have hne := ((edgesWithAttr_fst_perm m).pairwise_iff hsym).mpr
    (pairwise_key_ne_edge_indices m hm)
  exact (hle.and hne).imp fun h => Nat.lt_of_le_of_ne h.1 h.2

/-! ## Claim theorems -/

/-- C1: for every molecule successfully parsed from a row's structure
string, the record emitted by the process step carries a node-feature
table with exactly one row per atom and 5 columns, where row `i` (in the
parser's native atom ordering) is `[atomic number, degree, formal
charge, hybridization code, aromaticity flag]` of atom `i`. -/
theorem node_feature_table_correct (parse : String → Option Mol)
    (flag : Bool) (row : Row) (mol : Mol) (hp : parse row.smiles = some mol)
    (rec : GraphRecord) (hr : processRow parse flag row = some rec) :
    rec.x.length = mol.GetNumAtoms ∧
    (∀ r ∈ rec.x, r.length = 5) ∧
    ∀ i, (h : i < mol.atoms.length) →
      rec.x[i]? =
        some [mol.atoms[i].atomicNum, mol.atoms[i].degree,
          mol.atoms[i].formalCharge, mol.atoms[i].hybridization,
          if mol.atoms[i].isAromatic then 1 else 0] := by
  rw [processRow_parse_some parse flag row mol hp] at hr
  injection hr with hr
  subst hr
  refine ⟨by simp [nodeFeatures, Mol.GetNumAtoms], ?_, ?_⟩
  · intro r hrm
    simp only [nodeFeatures, List.mem_map] at hrm
    obtain ⟨a, -, rfl⟩ := hrm
    rfl
  · intro i h
    simp [nodeFeatures, List.getElem?_map, List.getElem?_eq_getElem h, atomRow]

theorem node_feature_table_correct_witness :
    ethanolRecord.x.length = ethanol.GetNumAtoms ∧
      ethanolRecord.x[0]? = some [6, 1, 0, 4, 0] := by
  have h := node_feature_table_correct parseExample true ⟨"CCO", 1⟩ ethanol
    (by decide) ethanolRecord (by decide)
  exact ⟨h.1, by simpa using h.2.2 0 (by decide)⟩

/-- C4: the feature emitted for a bond in edge-attribute mode appears in
the emitted edge-feature column and is the sentinel 4 for aromatic bonds
and the integer bond order otherwise; single, double and triple bonds
give 1, 2 and 3, all distinct from the sentinel. -/
theorem bond_feature_code (m : Mol) (b : Bond) (hb : b ∈ m.bonds) :
    bondAttr b ∈ (edgesWithAttr m).2 ∧
    (b.isAromatic = true → bondAttr b = 4) ∧
    (b.isAromatic = false → bondAttr b = pyInt b.bondType.asDouble) ∧
    (b.isAromatic = false → b.bondType = .single → bondAttr b = 1) ∧
    (b.isAromatic = false → b.bondType = .double → bondAttr b = 2) ∧
    (b.isAromatic = false → b.bondType = .triple → bondAttr b = 3) ∧
    (4 : Int) ≠ 1 ∧ (4 : Int) ≠ 2 ∧ (4 : Int) ≠ 3 := by
  refine ⟨?_, ?_, ?_, ?_, ?_, ?_, by decide, by decide, by decide⟩
  · have hpos : 0 < (edge_indices m).length := by
      rw [length_edge_indices]
      have := List.length_pos.mpr (List.ne_nil_of_mem hb)
      omega
    have hlen : (edge_indices m).length ≤ (edge_attrs m).length := by
      rw [length_edge_indices, length_edge_attrs]
    have hsnd : ((edge_indices m).zip (edge_attrs m)).map Prod.snd
        = edge_attrs m := List.map_snd_zip _ _ (le_of_eq (by
          rw [length_edge_indices, length_edge_attrs]))
    rw [edgesWithAttr]
    simp only [hpos, if_pos]
    rw [sortEdges]
    have hperm := (List.perm_insertionSort (keyLe m.GetNumAtoms)
      ((edge_indices m).zip (edge_attrs m))).map Prod.snd
    rw [hsnd] at hperm
    show bondAttr b ∈ (((edge_indices m).zip (edge_attrs m)).insertionSort
      (keyLe m.GetNumAtoms)).map Prod.snd
    rw [hperm.mem_iff]
    exact List.mem_flatMap.mpr ⟨b, hb, by simp [edge_attrs]⟩
  · intro h; simp [bondAttr, h]
  · intro h; simp [bondAttr, h]
  · intro h ht; simp [bondAttr, h, ht]; decide
  · intro h ht; simp [bondAttr, h, ht]; decide
  · intro h ht; simp [bondAttr, h, ht]; decide

theorem bond_feature_code_witness :
    bondAttr ⟨0, 1, .single, false⟩ ∈ (edgesWithAttr ethanol).2 ∧
      bondAttr ⟨0, 1, .single, false⟩ = 1 := by
  have h := bond_feature_code ethanol ⟨0, 1, .single, false⟩ (by decide)
  exact ⟨h.1, h.2.2.2.1 rfl rfl⟩

/-- C2: with the edge-attribute flag enabled, a molecule with B bonds
yields exactly 2B directed edge entries, and, up to the canonical
reordering, each bond contributes exactly the two directed pairs
(begin, end) and (end, begin), both carrying the identical feature
value. -/
theorem edge_list_double_count (m : Mol) :
    (edgesWithAttr m).1.length = 2 * m.bonds.length ∧
    (edgesWithAttr m).2.length = 2 * m.bonds.length ∧
    ((edgesWithAttr m).1.zip (edgesWithAttr m).2).Perm
      (m.bonds.flatMap fun b =>
        [((b.beginAtomIdx, b.endAtomIdx), bondAttr b),
         ((b.endAtomIdx, b.beginAtomIdx), bondAttr b)]) :=
  ⟨length_edgesWithAttr_fst m, length_edgesWithAttr_snd m,
   (edgesWithAttr_zip_perm m).trans
     (by rw [zip_edge_indices_attrs m])⟩

/-- C3: after the argsort permutation is applied, the composite keys
along the emitted edge list are non-decreasing, and re-applying the
same sort to the emitted edge list and edge features leaves both
unchanged. -/
theorem sort_canonical (m : Mol) :
    ((edgesWithAttr m).1.map (edgeKey m.GetNumAtoms)).Sorted (· ≤ ·) ∧
    sortEdges m.GetNumAtoms (edgesWithAttr m).1 (edgesWithAttr m).2 =
      edgesWithAttr m := by
  have hzs := edgesWithAttr_zip_sorted m
  constructor
  · have h1 : (edgesWithAttr m).1 =
        ((edgesWithAttr m).1.zip (edgesWithAttr m).2).map Prod.fst := by
      rw [edgesWithAttr_zip, edgesWithAttr_eq_sort, sortEdges]
    rw [h1]
    exact List.pairwise_map.mpr (List.pairwise_map.mpr hzs)
  · rw [sortEdges, edgesWithAttr_zip]
    rw [(List.sorted_insertionSort (keyLe m.GetNumAtoms)
      ((edge_indices m).zip (edge_attrs m))).insertionSort_eq]
    rw [edgesWithAttr_eq_sort, sortEdges]

/-- C7: a table with at least one row whose structure string the parser
rejects makes the conversion abort: no graph record is produced for any
row. -/
theorem unparseable_aborts (parse : String → Option Mol) (flag : Bool)
    (rows : List Row) (r : Row) (hr : r ∈ rows)
    (hfail : parse r.smiles = none) :
    processTable parse flag rows = none := by
  rw [processTable_eq_none]
  exact ⟨r, hr, (processRow_eq_none parse flag r).mpr hfail⟩

theorem unparseable_aborts_witness :
    processTable parseExample true [⟨"XYZ", 5⟩] = none :=
  unparseable_aborts parseExample true [⟨"XYZ", 5⟩] ⟨"XYZ", 5⟩ (by decide)
    (by decide)

/-- C6: the conversion is all-or-nothing: with no cache present, a
failing row aborts the run with no cache write and no partial state,
and the single write happens only when every row has been processed,
storing the full collection. -/
theorem all_or_nothing (parse : String → Option Mol) (flag : Bool)
    (rows : List Row) (st : Store) (h : st.cache = none) :
    ((∃ r ∈ rows, parse r.smiles = none) →
      constructDataset parse flag rows st = none) ∧
    (∀ recs st' k, constructDataset parse flag rows st = some (recs, st', k) →
      recs.length = rows.length ∧ st'.cache = some recs ∧
        ∀ r ∈ rows, ∃ mol, parse r.smiles = some mol) := by
  constructor
  · rintro ⟨r, hr, hfail⟩
    have hnone : processTable parse flag rows = none := by
      rw [processTable_eq_none]
      exact ⟨r, hr, (processRow_eq_none parse flag r).mpr hfail⟩
    simp [constructDataset, h, hnone]
  · intro recs st' k hc
    rw [constructDataset] at hc
    rw [h] at hc
    cases hpt : processTable parse flag rows with
    | none => rw [hpt] at hc; exact Option.noConfusion hc
    | some recs0 =>
      rw [hpt] at hc
      injection hc with hc
      simp only [Prod.mk.injEq] at hc
      obtain ⟨rfl, rfl, rfl⟩ := hc
      have hm := processTable_eq_some parse flag rows recs0 hpt
      refine ⟨hm.1, rfl, ?_⟩
      intro r hr
      obtain ⟨rec, hrec⟩ := hm.2 r hr
      cases hp : parse r.smiles with
      | none =>
        rw [(processRow_eq_none parse flag r).mpr hp] at hrec
        exact Option.noConfusion hrec
      | some mol => exact ⟨mol, rfl⟩

theorem all_or_nothing_witness :
    constructDataset parseExample true [⟨"XYZ", 5⟩] ⟨none⟩ = none :=
  (all_or_nothing parseExample true [⟨"XYZ", 5⟩] ⟨none⟩ rfl).1
    ⟨⟨"XYZ", 5⟩, by decide, by decide⟩

/-- C5: when the processed file exists, constructing the dataset loads
and returns the cached collection unchanged, with zero parser
invocations, and constructing twice on the same cache path yields
structurally identical collections. -/
theorem cached_construction (parse : String → Option Mol) (flag : Bool)
    (rows : List Row) (st : Store) (c : List GraphRecord)
    (h : st.cache = some c) :
    constructDataset parse flag rows st = some (c, st, 0) ∧
    ((constructDataset parse flag rows st).bind fun res =>
        constructDataset parse flag rows res.2.1) = some (c, st, 0) := by
  have h1 : constructDataset parse flag rows st = some (c, st, 0) := by
    simp [constructDataset, h]
  exact ⟨h1, by rw [h1]; simpa using h1⟩

theorem cached_construction_witness :
    constructDataset parseExample true exampleTable ⟨some [waterRecord]⟩ =
      some ([waterRecord], ⟨some [waterRecord]⟩, 0) :=
  (cached_construction parseExample true exampleTable ⟨some [waterRecord]⟩
    [waterRecord] rfl).1

/-- C8: on the two-row example table (`"CCO"` with label 1 and `"O"`
with label 0) the converter yields a two-record collection whose record
0 has a [3,5] node-feature table and whose record 1 has a [1,5]
node-feature table and an empty edge list. -/
theorem example_table_shapes :
    processTable parseExample true exampleTable =
      some [ethanolRecord, waterRecord] ∧
    ethanolRecord.x.length = 3 ∧ (∀ r ∈ ethanolRecord.x, r.length = 5) ∧
    waterRecord.x.length = 1 ∧ (∀ r ∈ waterRecord.x, r.length = 5) ∧
    waterRecord.edge_index = [] := by decide

/-- C10: for every well-formed molecule the two edge-construction modes
agree entry for entry: the edge index emitted in edge-attribute mode
(both directed pairs per bond, sorted by the composite key) equals the
edge index obtained without edge attributes from the dense adjacency
matrix via the sparse conversion. -/
theorem edge_modes_agree (m : Mol) (hm : m.wf) :
    (edgesWithAttr m).1 = edgesNoAttr m := by
  have hS := pairwise_lt_keys_fst m hm
  have hA := pairwise_lt_edgesNoAttr m
  have hSnd : (edgesWithAttr m).1.Nodup :=
    hS.imp fun h heq => absurd (heq ▸ h) (Nat.lt_irrefl _)
  have hAnd : (edgesNoAttr m).Nodup :=
    hA.imp fun h heq => absurd (heq ▸ h) (Nat.lt_irrefl _)
  have hperm : (edgesWithAttr m).1.Perm (edgesNoAttr m) := by
    rw [List.perm_ext_iff_of_nodup hSnd hAnd]
    intro p
    rw [(edgesWithAttr_fst_perm m).mem_iff, mem_edge_indices_iff,
      mem_edgesNoAttr_iff]
    constructor
    · intro hadj
      obtain ⟨h1, h2⟩ := adjacent_bounds m hm hadj
      exact ⟨h1, h2, hadj⟩
    · rintro ⟨-, -, h⟩
      exact h
  haveI : IsAntisymm (Nat × Nat) (fun p q =>
      edgeKey m.GetNumAtoms p < edgeKey m.GetNumAtoms q) :=
    ⟨fun a b h1 h2 => absurd h2 (Nat.lt_asymm h1)⟩
  exact List.eq_of_perm_of_sorted hperm hS hA

theorem edge_modes_agree_witness :
    (edgesWithAttr ethanol).1 = edgesNoAttr ethanol :=
  edge_modes_agree ethanol ⟨by decide, by decide⟩

/-- C9: the 80/20 split takes the first `⌊0.8·n⌋` records of the
shuffled sequence as the training set and the remaining `n − ⌊0.8·n⌋`
as the test set, and the two concatenate back to the entire shuffled
sequence, with no record duplicated or dropped. -/
theorem split_partition (l : List GraphRecord) :
    (train_set l).length = 8 * l.length / 10 ∧
    (test_set l).length = l.length - 8 * l.length / 10 ∧
    train_set l ++ test_set l = l := by
  refine ⟨?_, ?_, List.take_append_drop _ l⟩
  · rw [train_set, List.length_take]
    exact Nat.min_eq_left (by omega)
  · rw [test_set, List.length_drop]

end PyGIntro
